import Mathlib

/-!
Verification development for the clinpgx-lookup name-index and fuzzy-lookup
engine (src/clinpgx_lookup/lookup_utils.py and term_lookup.py).

The Python code is shallowly embedded:
- Python strings are Lean String values; character-level work happens on
  List Char with structural functions so that everything evaluates.
- Python floats are modelled as exact rationals.
- difflib.SequenceMatcher (the similarity backend used by the code) is
  modelled faithfully: the longest-match search with the earliest-in-a,
  earliest-in-b tie-break, the four extension loops, the recursive
  matching-block sum, and the autojunk rule for second arguments of
  length at least 200.
- pandas tables are modelled as parsed tables whose cells are
  Option String: an empty TSV field is parsed to none, which models the
  NaN produced by read_csv with keep_default_na=False, na_values equal
  to the singleton list containing the empty string; any other field is
  parsed to some of its text.  A Python dict is an insertion-ordered
  association list; a Python set of strings is a duplicate-free list.
-/

namespace ClinPGx

/-- Whitespace as recognised by Python str.strip and the regex class
backslash-s on ASCII input. -/
def pyIsSpace (c : Char) : Bool :=
  c = ' ' || c = '\t' || c = '\n' || c = '\r' || c = '\x0b' || c = '\x0c'

/-- Python str.strip on a character list: drop whitespace from both ends. -/
def stripChars (l : List Char) : List Char :=
  ((l.dropWhile pyIsSpace).reverse.dropWhile pyIsSpace).reverse

/-- Python str.strip on strings. -/
def pyStrip (s : String) : String :=
  String.mk (stripChars s.data)

/-- Python str.strip with a quote-character argument: drop double quotes
from both ends.  Used by split_synonyms. -/
def stripQuoteChars (l : List Char) : List Char :=
  ((l.dropWhile (· = Char.ofNat 34)).reverse.dropWhile (· = Char.ofNat 34)).reverse

/-- The unicode folding steps of normalize_name: curly single quotes to
an apostrophe, en and em dashes to a hyphen, registered and trademark
signs removed.  Each character maps to a (possibly empty) list. -/
def foldPunct (c : Char) : List Char :=
  if c = '’' ∨ c = '‘' then [Char.ofNat 39]
  else if c = '–' ∨ c = '—' then ['-']
  else if c = '®' ∨ c = '™' then []
  else [c]

/-- A character kept verbatim by the regex substitution of normalize_name:
lowercase ASCII letters, digits, and whitespace. -/
def keptChar (c : Char) : Bool :=
  ('a' ≤ c && c ≤ 'z') || ('0' ≤ c && c ≤ '9') || pyIsSpace c

/-- Collapse every whitespace run to a single space (re.sub of one or
more whitespace characters with one space).  The Boolean records whether
the previous character was part of a whitespace run. -/
def collapseWS : Bool → List Char → List Char
  | _, [] => []
  | prevSpace, c :: rest =>
    if pyIsSpace c then
      if prevSpace then collapseWS true rest
      else ' ' :: collapseWS true rest
    else c :: collapseWS false rest

/-- normalize_name from lookup_utils.py: trim, lowercase, fold unicode
punctuation, replace every character outside lowercase alphanumerics and
whitespace with a space, collapse whitespace runs, trim again.
Python lowercases the full unicode range; Char.toLower lowercases ASCII,
which agrees on every character that can survive the substitution. -/
def normalizeName (s : String) : String :=
  let l1 := stripChars s.data
  let l2 := l1.map Char.toLower
  let l3 := l2.flatMap foldPunct
  let l4 := l3.map (fun c => if keptChar c then c else ' ')
  let l5 := collapseWS false l4
  String.mk (stripChars l5)

/-- Split a character list at every occurrence of any of the given
delimiter characters, keeping empty pieces (re.split semantics). -/
def splitAnyAux (delims : List Char) : List Char → List Char → List String
  | cur, [] => [String.mk cur.reverse]
  | cur, c :: rest =>
    if delims.contains c then String.mk cur.reverse :: splitAnyAux delims [] rest
    else splitAnyAux delims (c :: cur) rest

/-- re.split on a set of single-character delimiters. -/
def splitAny (delims : List Char) (s : String) : List String :=
  splitAnyAux delims [] s.data

/-- Python str.split with separator a single space. -/
def splitSpace (s : String) : List String :=
  splitAny [' '] s

/-- Replace each doubled double-quote by a single one, left to right
(Python str.replace of two quote characters with one). -/
def undoubleQuotes : List Char → List Char
  | [] => []
  | [c] => [c]
  | c :: d :: rest =>
    if c = Char.ofNat 34 ∧ d = Char.ofNat 34 then
      Char.ofNat 34 :: undoubleQuotes rest
    else c :: undoubleQuotes (d :: rest)

/-- split_synonyms from lookup_utils.py on a string field (the non-string
branches are handled at the call sites, where a missing or NaN cell
yields the empty list). -/
def splitSynonyms (field : String) : List String :=
  let text := stripChars field.data
  if text = [] then []
  else
    let text := stripQuoteChars (undoubleQuotes text)
    let parts := splitAnyAux [',', ';', '/', '|'] [] text
    parts.foldr
      (fun p acc =>
        let p := stripChars (stripQuoteChars (stripChars p.data))
        if p = [] then acc else String.mk p :: acc) []

/-- Lexicographic comparison of character lists by code point, the order
Python uses on strings. -/
def charListLe : List Char → List Char → Bool
  | [], _ => true
  | _ :: _, [] => false
  | a :: as, b :: bs => if a = b then charListLe as bs else decide (a < b)

/-- Python string comparison (code-point lexicographic). -/
def strLe (a b : String) : Bool :=
  charListLe a.data b.data

/-- The sort order used for Python sorted on strings, as a Prop. -/
def strLeP (a b : String) : Prop := strLe a b = true

instance : DecidableRel strLeP := fun a b => instDecidableEqBool (strLe a b) true

/-- token_sort from lookup_utils.py: normalize, split on single spaces,
drop empty tokens, sort ascending, rejoin with single spaces.  Python
list.sort is a stable sort; on a total preorder any two stable sorts
agree, so insertion sort models it exactly. -/
def tokenSort (s : String) : String :=
  let tokens := (splitSpace (normalizeName s)).filter (· ≠ "")
  String.intercalate (" ") (List.insertionSort strLeP tokens)

/-!
difflib.SequenceMatcher, as called by similarity: no junk function, so
the only junk comes from the autojunk rule.  Matching is restricted to
non-junk positions of b; the b2j-based dynamic program is modelled
declaratively as: among all common runs (i, j, k) with b-side characters
non-junk, pick the largest k, tying on smallest i and then smallest j,
which is exactly the documented and implemented tie-break.
-/

/-- Length of the common run at the heads of two suffixes, counting only
while the b-side character passes the keep test. -/
def runLen (keep : Char → Bool) : List Char → List Char → Nat
  | x :: xs, y :: ys => if x = y ∧ keep y then runLen keep xs ys + 1 else 0
  | _, _ => 0

/-- The run length at cell t of the (row-major) scan grid. -/
def cellRun (keep : Char → Bool) (a b : List Char) (t : Nat) : Nat :=
  runLen keep (a.drop (t / b.length)) (b.drop (t % b.length))

/-- One step of the longest-match scan: strict improvement only, so the
first cell attaining the maximum wins, i.e. smallest i then smallest j. -/
def bestStep (keep : Char → Bool) (a b : List Char) (acc : Nat × Nat × Nat) (t : Nat) :
    Nat × Nat × Nat :=
  let k := cellRun keep a b t
  if acc.2.2 < k then (t / b.length, t % b.length, k) else acc

/-- The best matching block before extension: the longest junk-free
common run, earliest in a and then in b. -/
def findBest (keep : Char → Bool) (a b : List Char) : Nat × Nat × Nat :=
  (List.range (a.length * b.length)).foldl (bestStep keep a b) (0, 0, 0)

/-- Extension loop moving the block start left while both indices are
positive, the b-side predecessor passes the test, and the characters
match (the two left-extension loops of find_longest_match). -/
def extLeft (test : Char → Bool) (a b : List Char) : Nat → Nat → Nat → Nat × Nat × Nat
  | 0, j, k => (0, j, k)
  | i + 1, 0, k => (i + 1, 0, k)
  | i + 1, j + 1, k =>
    match a.get? i, b.get? j with
    | some x, some y =>
      if test y ∧ x = y then extLeft test a b i j (k + 1) else (i + 1, j + 1, k)
    | _, _ => (i + 1, j + 1, k)

/-- Extension loop growing the block right while the characters beyond
it match and the b-side one passes the test; fuel bounds the growth and
is always supplied at least the length of a. -/
def extRight (test : Char → Bool) (a b : List Char) (i j : Nat) : Nat → Nat → Nat
  | k, 0 => k
  | k, fuel + 1 =>
    match a.get? (i + k), b.get? (j + k) with
    | some x, some y => if test y ∧ x = y then extRight test a b i j (k + 1) fuel else k
    | _, _ => k

/-- find_longest_match on a whole range: the dynamic program, then the
non-junk extensions, then the junk extensions. -/
def findLongestMatch (junk : Char → Bool) (a b : List Char) : Nat × Nat × Nat :=
  let r0 := findBest (fun c => !junk c) a b
  let r1 := extLeft (fun c => !junk c) a b r0.1 r0.2.1 r0.2.2
  let k2 := extRight (fun c => !junk c) a b r1.1 r1.2.1 r1.2.2 a.length
  let r3 := extLeft junk a b r1.1 r1.2.1 k2
  let k4 := extRight junk a b r3.1 r3.2.1 r3.2.2 a.length
  (r3.1, r3.2.1, k4)

/-- Total size of all matching blocks (the recursion performed by
get_matching_blocks), with fuel for the recursion depth; the callers
supply fuel at least the sum of the lengths, which never runs out. -/
def matchesTotalF (junk : Char → Bool) : Nat → List Char → List Char → Nat
  | 0, _, _ => 0
  | fuel + 1, a, b =>
    match findLongestMatch junk a b with
    | (i, j, k) =>
      if k = 0 then 0
      else
        k + matchesTotalF junk fuel (a.take i) (b.take j) +
          matchesTotalF junk fuel (a.drop (i + k)) (b.drop (j + k))

/-- The number of matching characters reported by SequenceMatcher. -/
def matchesTotal (junk : Char → Bool) (a b : List Char) : Nat :=
  matchesTotalF junk (a.length + b.length) a b

/-- The autojunk rule of SequenceMatcher: when b has at least 200
elements, every element occurring more than length-div-100 plus one
times is junk.  Junk is computed from b only. -/
def popularJunk (b : List Char) : Char → Bool :=
  if 200 ≤ b.length then fun c => decide (b.length / 100 + 1 < b.count c)
  else fun _ => false

/-- SequenceMatcher.ratio: twice the matches over the total length (and
1.0 on two empty sequences). -/
def ratio (a b : List Char) : ℚ :=
  if a.length + b.length = 0 then 1
  else 2 * (matchesTotal (popularJunk b) a b : ℚ) / (a.length + b.length)

/-- similarity from lookup_utils.py: token-sort both inputs, return 0.0
if either is empty, otherwise the SequenceMatcher ratio. -/
def similarity (a b : String) : ℚ :=
  let aa := tokenSort a
  let bb := tokenSort b
  if aa = "" ∨ bb = "" then 0
  else ratio aa.data bb.data

/-! The name index and the lookup entry points. -/

/-- Membership test on a list of strings (Python in on a list or set). -/
def listHas (l : List String) (x : String) : Bool :=
  l.any (fun y => decide (y = x))

/-- Lookup in an insertion-ordered association list (a Python dict whose
keys are strings). -/
def alookup {β : Type} : List (String × β) → String → Option β
  | [], _ => none
  | (k, v) :: rest, key => if k = key then some v else alookup rest key

/-- NameIndex from lookup_utils.py, without the metadata dictionary
(build timestamps and counts are not needed by any claim): name_to_ids
maps normalized names to id sets (duplicate-free lists), candidates is
the sorted key sequence, id_to_primary_name maps ids to display names. -/
structure NameIndex where
  name_to_ids : List (String × List String)
  candidates : List String
  id_to_primary_name : List (String × String)
deriving DecidableEq, Repr

/-- The value a successful Python call of lookup_ids produces: a triple
of ids, matched names and scores, except for the blank-query branch
which returns a two-tuple. -/
inductive LookupReturn where
  | pair : List String → List String → LookupReturn
  | triple : List String → List String → List ℚ → LookupReturn
deriving DecidableEq, Repr

/-- The length of the shortest candidate name mapping to the given id,
computed exactly as the loop in the exact path of lookup_ids: scan
candidates in order, keep a strictly smaller length (the accompanying
shortest_name variable of the source is dead and omitted); none models
the initial float infinity. -/
def shortestAssocLen (index : NameIndex) (acc : String) : Option Nat :=
  index.candidates.foldl
    (fun best cand =>
      if listHas ((alookup index.name_to_ids cand).getD []) acc then
        match best with
        | none => some cand.length
        | some m => if cand.length < m then some cand.length else best
      else best)
    none

/-- Strict order on shortest-name lengths with none as infinity. -/
def optNatLt : Option Nat → Option Nat → Bool
  | some a, some b => decide (a < b)
  | some _, none => true
  | none, _ => false

/-- The sort key of the exact path: (shortest associated name length,
id), ascending, as Python tuple comparison. -/
def exactLe (x y : String × Option Nat) : Bool :=
  optNatLt x.2 y.2 || (decide (x.2 = y.2) && strLe x.1 y.1)

/-- exactLe as a relation for insertion sort. -/
def exactLeP (x y : String × Option Nat) : Prop := exactLe x y = true

instance : DecidableRel exactLeP :=
  fun x y => instDecidableEqBool (exactLe x y) true

/-- The number of non-space characters of a matched name, the middle
component of the fuzzy sort key (len of name.replace of space). -/
def noSpaceLen (s : String) : Nat :=
  (s.data.filter (fun c => c ≠ ' ')).length

/-- The fuzzy-path sort key comparison: score descending, then
space-stripped matched-name length ascending, then id ascending.
Entries are (id, (score, matched name)). -/
def fuzzLe (x y : String × ℚ × String) : Bool :=
  decide (y.2.1 < x.2.1) ||
    (decide (x.2.1 = y.2.1) &&
      (decide (noSpaceLen x.2.2 < noSpaceLen y.2.2) ||
        (decide (noSpaceLen x.2.2 = noSpaceLen y.2.2) && strLe x.1 y.1)))

/-- fuzzLe as a relation for insertion sort. -/
def fuzzLeP (x y : String × ℚ × String) : Prop := fuzzLe x y = true

instance : DecidableRel fuzzLeP :=
  fun x y => instDecidableEqBool (fuzzLe x y) true

/-- The exact path of lookup_ids, entered when the normalized query is a
key of name_to_ids and given the stored id set: pair each id with its
shortest associated name length, sort by (length, id), truncate to
top_k, read display names from id_to_primary_name with the normalized
query as fallback, and score every result 1.0. -/
def exactPath (index : NameIndex) (normQ : String) (topK : Nat) (ids : List String) :
    LookupReturn :=
  let items := ids.map (fun acc => (acc, shortestAssocLen index acc))
  let sorted := List.insertionSort exactLeP items
  let outIds := (sorted.take topK).map (·.1)
  .triple outIds
    (outIds.map (fun acc => (alookup index.id_to_primary_name acc).getD normQ))
    (List.replicate outIds.length 1)

/-- The length-based pruning test of the fuzzy path: skip the candidate
when the length difference exceeds the longer length times one minus the
threshold. -/
def pruneTest (normQ cand : String) (threshold : ℚ) : Bool :=
  decide ((max normQ.length cand.length : ℚ) * (1 - threshold) <
    |(normQ.length : ℚ) - (cand.length : ℚ)|)

/-- The fuzzy-path candidate scan with the early exit: skip pruned
candidates, keep scores at or above the threshold, and stop as soon as a
candidate scores exactly 1.0 while at least top_k entries are collected
(the best_score variable of the source is dead and omitted). -/
def scanEarly (normQ : String) (threshold : ℚ) (topK : Nat) :
    List String → List (String × ℚ) → List (String × ℚ)
  | [], scored => scored
  | cand :: rest, scored =>
    if pruneTest normQ cand threshold then scanEarly normQ threshold topK rest scored
    else
      let s := similarity normQ cand
      if threshold ≤ s then
        let scored2 := scored ++ [(cand, s)]
        if s = 1 ∧ topK ≤ scored2.length then scored2
        else scanEarly normQ threshold topK rest scored2
      else scanEarly normQ threshold topK rest scored

/-- The same scan without the early exit: every candidate is visited. -/
def scanFull (normQ : String) (threshold : ℚ) :
    List String → List (String × ℚ) → List (String × ℚ)
  | [], scored => scored
  | cand :: rest, scored =>
    if pruneTest normQ cand threshold then scanFull normQ threshold rest scored
    else
      let s := similarity normQ cand
      if threshold ≤ s then scanFull normQ threshold rest (scored ++ [(cand, s)])
      else scanFull normQ threshold rest scored

/-- One update of the id_to_best dictionary: record the score and the
candidate name for the id unless a strictly better score is present
(first writer wins on ties, insertion order preserved). -/
def updateBest (acc : String) (s : ℚ) (cand : String) :
    List (String × ℚ × String) → List (String × ℚ × String)
  | [] => [(acc, s, cand)]
  | (a, bs, bn) :: rest =>
    if a = acc then
      if bs < s then (a, s, cand) :: rest else (a, bs, bn) :: rest
    else (a, bs, bn) :: updateBest acc s cand rest

/-- Aggregate the scored candidates by id, keeping the best score per id
and the candidate that produced it. -/
def aggregateScored (index : NameIndex) (scored : List (String × ℚ)) :
    List (String × ℚ × String) :=
  scored.foldl
    (fun table p =>
      ((alookup index.name_to_ids p.1).getD []).foldl
        (fun table acc => updateBest acc p.2 p.1 table) table)
    []

/-- Final ranking of the fuzzy path: aggregate, sort by the fuzzy key,
truncate to top_k (max with 0 is the identity on Nat) and project the
three output lists. -/
def fuzzyRank (index : NameIndex) (topK : Nat) (scored : List (String × ℚ)) :
    LookupReturn :=
  if scored = [] then .triple [] [] []
  else
    let items := List.insertionSort fuzzLeP (aggregateScored index scored)
    let top := items.take topK
    .triple (top.map (·.1)) (top.map (fun e => e.2.2)) (top.map (fun e => e.2.1))

/-- lookup_ids from lookup_utils.py.  A blank query returns the
two-element tuple of the source (line 328); otherwise the exact path is
taken when the normalized query is a key of name_to_ids, and the fuzzy
path with pruning and early exit otherwise.  top_k enters as a natural
number since every claim constrains it to be non-negative. -/
def lookupIds (query : String) (index : NameIndex) (threshold : ℚ) (topK : Nat) :
    LookupReturn :=
  if pyStrip query = "" then .pair [] []
  else
    let normQ := normalizeName query
    match alookup index.name_to_ids normQ with
    | some ids => exactPath index normQ topK ids
    | none => fuzzyRank index topK (scanEarly normQ threshold topK index.candidates [])

/-- A replacement of the fuzzy path by a full scan of all candidates,
following the specification words for the refinement claim: identical to
lookupIds except that the candidate scan has no early exit. -/
def fullScanLookup (query : String) (index : NameIndex) (threshold : ℚ) (topK : Nat) :
    LookupReturn :=
  if pyStrip query = "" then .pair [] []
  else
    let normQ := normalizeName query
    match alookup index.name_to_ids normQ with
    | some ids => exactPath index normQ topK ids
    | none => fuzzyRank index topK (scanFull normQ threshold index.candidates [])

/-- The match record returned by ClinPGxTermLookup.search. -/
structure ClinPGxMatch where
  id : String
  name : String
  score : ℚ
deriving DecidableEq, Repr

/-- ClinPGxTermLookup.search after the index has been obtained: the call
unpacks the result of lookup_ids into three variables and zips them into
match records; unpacking the two-element blank-query tuple raises a
ValueError. -/
def searchWithIndex (index : NameIndex) (term : String) (threshold : ℚ) (topK : Nat) :
    Except String (List ClinPGxMatch) :=
  match lookupIds term index threshold topK with
  | .triple ids names scores =>
    .ok (((ids.zip (names.zip scores))).map (fun p => ⟨p.1, p.2.1, p.2.2⟩))
  | .pair _ _ => .error ("ValueError: not enough values to unpack (expected 3, got 2)")

/-! The build pass over a parsed source table. -/

/-- A parsed table cell: none models the NaN that read_csv produces for
an empty field under na_values containing only the empty string (with
keep_default_na disabled, no other field is ever NaN); some holds the
text of any other field. -/
abbrev Cell := Option String

/-- A parsed row: column label to cell, one entry per table column. -/
abbrev Row := List (String × Cell)

/-- A parsed source table: the header and the parsed rows. -/
structure Table where
  columns : List String
  rows : List Row
deriving DecidableEq, Repr

/-- The errors a build can surface: the ValueError raised for a missing
ID column (the SchemaError of the specification), and the AttributeError
Python raises when strip is called on a non-string. -/
inductive BuildError where
  | schemaError : String → BuildError
  | attributeError : String → BuildError
deriving DecidableEq, Repr

/-- Reading the ID field: row.get with default of the empty string,
then strip.  The default applies only when the label is missing; a NaN
cell reaches strip and raises AttributeError. -/
def getIdStrip (row : Row) (col : String) : Except BuildError String :=
  match alookup row col with
  | none => .ok ""
  | some none => .error (.attributeError ("float object has no attribute strip"))
  | some (some v) => .ok (pyStrip v)

/-- The primary display name of a row: the first primary column present
in the table whose cell is a string with non-empty strip; the stripped
value.  NaN cells fail the isinstance test and are skipped. -/
def rowPrimaryName (columns : List String) (row : Row) : List String → Option String
  | [] => none
  | col :: rest =>
    if listHas columns col then
      match alookup row col with
      | some (some v) =>
        if pyStrip v ≠ "" then some (pyStrip v) else rowPrimaryName columns row rest
      | _ => rowPrimaryName columns row rest
    else rowPrimaryName columns row rest

/-- All candidate raw names of a row: every non-empty stripped value of
a present primary column, then every piece split out of every present
list column (missing and NaN cells contribute nothing). -/
def rowAllNames (columns : List String) (primaryCols listCols : List String) (row : Row) :
    List String :=
  (primaryCols.foldr
    (fun col acc =>
      if listHas columns col then
        match alookup row col with
        | some (some v) => if pyStrip v ≠ "" then pyStrip v :: acc else acc
        | _ => acc
      else acc)
    []) ++
  listCols.flatMap
    (fun col =>
      if listHas columns col then
        match alookup row col with
        | some (some v) => splitSynonyms v
        | _ => []
      else [])

/-- Python dict assignment on an association list: overwrite in place,
else append. -/
def dictSet (m : List (String × String)) (k v : String) : List (String × String) :=
  match m with
  | [] => [(k, v)]
  | (a, b) :: rest => if a = k then (k, v) :: rest else (a, b) :: dictSet rest k v

/-- name_to_ids.setdefault(norm, set()).add(acc): create the key with an
empty set if absent, then add the id (sets are duplicate-free lists in
insertion order). -/
def addNameId (m : List (String × List String)) (norm acc : String) :
    List (String × List String) :=
  match m with
  | [] => [(norm, [acc])]
  | (k, ids) :: rest =>
    if k = norm then (k, if listHas ids acc then ids else ids ++ [acc]) :: rest
    else (k, ids) :: addNameId rest norm acc

/-- Add one row's candidate names for the given id, with the per-row
seen set deduplicating by normalized form and skipping empty forms. -/
def addRowNames (acc : String) (names : List String)
    (m : List (String × List String)) : List (String × List String) :=
  (names.foldl
    (fun st nm =>
      let norm := normalizeName nm
      if norm = "" ∨ listHas st.1 norm then st
      else (st.1 ++ [norm], addNameId st.2 norm acc))
    (([] : List String), m)).2

/-- The state accumulated while processing rows: the name_to_ids and
id_to_primary_name dictionaries. -/
abbrev BuildState := List (String × List String) × List (String × String)

/-- Processing of one table row during a build: read and strip the ID
(possibly raising), skip the row when it is empty, record the primary
display name (unconditional dict assignment), and add the row's names. -/
def buildStep (columns : List String) (primaryCols listCols : List String) (idCol : String)
    (st : BuildState) (row : Row) : Except BuildError BuildState :=
  match getIdStrip row idCol with
  | .error e => .error e
  | .ok acc =>
    if acc = "" then .ok st
    else
      let primMap := match rowPrimaryName columns row primaryCols with
        | some p => dictSet st.2 acc p
        | none => st.2
      .ok (addRowNames acc (rowAllNames columns primaryCols listCols row) st.1, primMap)

/-- The row loop of the build: process rows in order, stopping at the
first raising row. -/
def buildRows (columns : List String) (primaryCols listCols : List String)
    (idCol : String) : List Row → BuildState → Except BuildError BuildState
  | [], st => .ok st
  | row :: rest, st =>
    match buildStep columns primaryCols listCols idCol st row with
    | .error e => .error e
    | .ok st2 => buildRows columns primaryCols listCols idCol rest st2

/-- NameIndex.build_from_tsv on a parsed table: raise the schema error
when the ID column is absent, otherwise fold the rows and sort the keys
into candidates. -/
def buildFromTable (tbl : Table) (idCol : String) (primaryCols : List String)
    (listCols : List String) : Except BuildError NameIndex :=
  if listHas tbl.columns idCol then
    match buildRows tbl.columns primaryCols listCols idCol tbl.rows ([], []) with
    | .error e => .error e
    | .ok st =>
      .ok { name_to_ids := st.1,
            candidates := List.insertionSort strLeP (st.1.map Prod.fst),
            id_to_primary_name := st.2 }
  else
    .error (.schemaError ("Expected column " ++ idCol ++ " in table"))

/-! Order facts about the three sort comparators, needed to apply the
insertion-sort lemmas. -/

theorem charListLe_total : ∀ a b : List Char, charListLe a b = true ∨ charListLe b a = true
  | [], _ => Or.inl rfl
  | _ :: _, [] => Or.inr rfl
  | a :: as, b :: bs => by
    by_cases hab : a = b
    · subst hab
      simpa [charListLe] using charListLe_total as bs
    · rcases lt_or_gt_of_ne hab with h | h
      · left; simp [charListLe, hab, h]
      · right; simp [charListLe, Ne.symm hab, h]

theorem charListLe_trans :
    ∀ a b c : List Char, charListLe a b = true → charListLe b c = true →
      charListLe a c = true
  | [], _, _, _, _ => rfl
  | _ :: _, [], _, h, _ => by simp [charListLe] at h
  | _ :: _, _ :: _, [], _, h => by simp [charListLe] at h
  | a :: as, b :: bs, c :: cs, h1, h2 => by
    by_cases hab : a = b <;> by_cases hbc : b = c
    · subst hab; subst hbc
      simp only [charListLe, if_pos rfl] at h1 h2 ⊢
      exact charListLe_trans as bs cs h1 h2
    · subst hab
      simpa [charListLe, hbc] using h2
    · subst hbc
      simpa [charListLe, hab] using h1
    · simp only [charListLe, if_neg hab, decide_eq_true_eq] at h1
      simp only [charListLe, if_neg hbc, decide_eq_true_eq] at h2
      have hac : a < c := lt_trans h1 h2
      simp [charListLe, ne_of_lt hac, hac]

theorem strLe_total (a b : String) : strLe a b = true ∨ strLe b a = true :=
  charListLe_total a.data b.data

theorem strLe_trans {a b c : String} (h1 : strLe a b = true) (h2 : strLe b c = true) :
    strLe a c = true :=
  charListLe_trans a.data b.data c.data h1 h2

instance : IsTotal String strLeP := ⟨strLe_total⟩

instance : IsTrans String strLeP := ⟨fun _ _ _ => strLe_trans⟩

theorem optNatLt_trichotomy (x y : Option Nat) :
    optNatLt x y = true ∨ x = y ∨ optNatLt y x = true := by
  cases x <;> cases y <;> simp [optNatLt] <;> omega

theorem optNatLt_trans {x y z : Option Nat} (h1 : optNatLt x y = true)
    (h2 : optNatLt y z = true) : optNatLt x z = true := by
  cases x <;> cases y <;> cases z <;> simp_all [optNatLt] <;> omega

theorem optNatLt_asymm {x y : Option Nat} (h : optNatLt x y = true) :
    optNatLt y x = false ∧ x ≠ y := by
  cases x <;> cases y <;> simp_all [optNatLt] <;> omega

theorem exactLe_total (x y : String × Option Nat) :
    exactLe x y = true ∨ exactLe y x = true := by
  rcases optNatLt_trichotomy x.2 y.2 with h | h | h
  · left; simp [exactLe, h]
  · rcases strLe_total x.1 y.1 with hs | hs
    · left; simp [exactLe, h, hs]
    · right; simp [exactLe, h.symm, hs]
  · right; simp [exactLe, h]

theorem exactLe_trans {x y z : String × Option Nat}
    (h1 : exactLe x y = true) (h2 : exactLe y z = true) : exactLe x z = true := by
  simp only [exactLe, Bool.or_eq_true, Bool.and_eq_true, decide_eq_true_eq] at h1 h2 ⊢
  rcases h1 with h1 | ⟨h1e, h1s⟩
  · rcases h2 with h2 | ⟨h2e, h2s⟩
    · exact Or.inl (optNatLt_trans h1 h2)
    · exact Or.inl (h2e ▸ h1)
  · rcases h2 with h2 | ⟨h2e, h2s⟩
    · exact Or.inl (h1e ▸ h2)
    · exact Or.inr ⟨h1e.trans h2e, strLe_trans h1s h2s⟩

instance : IsTotal (String × Option Nat) exactLeP := ⟨exactLe_total⟩

instance : IsTrans (String × Option Nat) exactLeP := ⟨fun _ _ _ => exactLe_trans⟩

theorem fuzzLe_total (x y : String × ℚ × String) :
    fuzzLe x y = true ∨ fuzzLe y x = true := by
  rcases lt_trichotomy x.2.1 y.2.1 with h | h | h
  · right; simp [fuzzLe, h]
  · rcases lt_trichotomy (noSpaceLen x.2.2) (noSpaceLen y.2.2) with hn | hn | hn
    · left; simp [fuzzLe, h, hn]
    · rcases strLe_total x.1 y.1 with hs | hs
      · left; simp [fuzzLe, h, hn, hs]
      · right; simp [fuzzLe, h.symm, hn.symm, hs]
    · right; simp [fuzzLe, h.symm, hn]
  · left; simp [fuzzLe, h]

theorem fuzzLe_trans {x y z : String × ℚ × String}
    (h1 : fuzzLe x y = true) (h2 : fuzzLe y z = true) : fuzzLe x z = true := by
  simp only [fuzzLe, Bool.or_eq_true, Bool.and_eq_true, decide_eq_true_eq] at h1 h2 ⊢
  rcases h1 with h1 | ⟨h1e, h1r⟩
  · rcases h2 with h2 | ⟨h2e, _⟩
    · exact Or.inl (lt_trans h2 h1)
    · exact Or.inl (h2e ▸ h1)
  · rcases h2 with h2 | ⟨h2e, h2r⟩
    · exact Or.inl (h1e ▸ h2)
    · refine Or.inr ⟨h1e.trans h2e, ?_⟩
      rcases h1r with h1r | ⟨h1n, h1s⟩
      · rcases h2r with h2r | ⟨h2n, _⟩
        · exact Or.inl (lt_trans h1r h2r)
        · exact Or.inl (h2n ▸ h1r)
      · rcases h2r with h2r | ⟨h2n, h2s⟩
        · exact Or.inl (h1n ▸ h2r)
        · exact Or.inr ⟨h1n.trans h2n, strLe_trans h1s h2s⟩

instance : IsTotal (String × ℚ × String) fuzzLeP := ⟨fuzzLe_total⟩

instance : IsTrans (String × ℚ × String) fuzzLeP := ⟨fun _ _ _ => fuzzLe_trans⟩

/-- A one-entry index used as a concrete input by several witnesses. -/
def aspirinIndex : NameIndex :=
  { name_to_ids := [("aspirin", ["PA1"])],
    candidates := ["aspirin"],
    id_to_primary_name := [("PA1", "Aspirin")] }

/-- C1.  The claim says a blank query yields an empty result sequence
without an error.  In the code, lookup_ids returns the two-element tuple
of line 328 instead of its declared three-element tuple, so the callers
of search unpack it into three variables and raise a ValueError: the
blank-query call errors instead of returning an empty sequence. -/
theorem c1_blank_query_two_tuple (index : NameIndex) (threshold : ℚ) (topK : Nat)
    (query : String) (h : pyStrip query = "") :
    lookupIds query index threshold topK = LookupReturn.pair [] [] ∧
    searchWithIndex index query threshold topK =
      Except.error ("ValueError: not enough values to unpack (expected 3, got 2)") := by
  constructor
  · unfold lookupIds
    rw [if_pos h]
  · unfold searchWithIndex lookupIds
    rw [if_pos h]

/-- Witness for C1 at the whitespace-only query. -/
theorem c1_blank_query_two_tuple_witness :
    pyStrip ("  ") = "" ∧
      (lookupIds ("  ") aspirinIndex 0 5 = LookupReturn.pair [] [] ∧
        searchWithIndex aspirinIndex ("  ") 0 5 =
          Except.error ("ValueError: not enough values to unpack (expected 3, got 2)")) :=
  ⟨rfl, c1_blank_query_two_tuple aspirinIndex 0 5 ("  ") rfl⟩

/-- C3.  The claim says the length-based pruning never skips a candidate
scoring at or above the threshold.  It does: at normalized query abc,
candidate abcde and threshold 7/10, the similarity is 3/4, at least the
threshold, yet the pruning test fires (2 is more than 5 times 3/10), so
the candidate is skipped by the fuzzy scan. -/
theorem c3_prune_drops_qualifying_candidate :
    (7/10 : ℚ) ≤ similarity ("abc") ("abcde") ∧
      pruneTest ("abc") ("abcde") (7/10) = true := by
  have hs : similarity ("abc") ("abcde") = 2 * ((3:ℕ):ℚ) / (((3:ℕ):ℚ) + ((5:ℕ):ℚ)) := rfl
  constructor
  · rw [hs]; norm_num
  · unfold pruneTest
    have h1 : String.length ("abc") = 3 := rfl
    have h2 : String.length ("abcde") = 5 := rfl
    rw [h1, h2]
    simp only [decide_eq_true_eq]
    push_cast
    rw [show max (3:ℚ) 5 = 5 from max_eq_right (by norm_num),
      show |(3:ℚ) - 5| = 2 by rw [abs_of_nonpos] <;> norm_num]
    norm_num

/-- C7.  The claim says out-of-range thresholds are rejected with an
InvalidArgument error before any work.  The code never validates the
threshold: at threshold 2 the search succeeds and returns the exact
match. -/
theorem c7_out_of_range_threshold_accepted :
    searchWithIndex aspirinIndex ("aspirin") 2 5 =
      Except.ok [{ id := "PA1", name := "Aspirin", score := 1 }] := rfl

/-- C7 amended: no threshold validation exists; the threshold is passed
through unvalidated, and the exact path ignores it entirely, so any two
thresholds (in or out of range) give identical results whenever the
normalized query is an exact key. -/
theorem c7_threshold_passed_through (index : NameIndex) (query : String) (topK : Nat)
    (t1 t2 : ℚ)
    (h : (alookup index.name_to_ids (normalizeName query)).isSome = true) :
    lookupIds query index t1 topK = lookupIds query index t2 topK := by
  unfold lookupIds
  by_cases hq : pyStrip query = ""
  · rw [if_pos hq, if_pos hq]
  · rw [if_neg hq, if_neg hq]
    rcases hopt : alookup index.name_to_ids (normalizeName query) with _ | ids
    · rw [hopt] at h
      simp at h
    · simp only [hopt]

/-- Witness for C7 amended: thresholds 2 and 0 agree on an exact hit. -/
theorem c7_threshold_passed_through_witness :
    (alookup aspirinIndex.name_to_ids (normalizeName ("aspirin"))).isSome = true ∧
      lookupIds ("aspirin") aspirinIndex 2 5 = lookupIds ("aspirin") aspirinIndex 0 5 :=
  ⟨rfl, c7_threshold_passed_through aspirinIndex ("aspirin") 5 2 0 rfl⟩

/-- The index on which the early exit and the full scan disagree: two
distinct candidates with the same token multiset, so both score 1.0
against a third arrangement of the same tokens. -/
def earlyExitIndex : NameIndex :=
  { name_to_ids := [("a c b", ["Z"]), ("b a c", ["A"])],
    candidates := ["a c b", "b a c"],
    id_to_primary_name := [] }

/-- The early-exit scan equals the full scan whenever no candidate in
the scanned list attains similarity 1.0 against the normalized query,
since the break condition then never fires. -/
theorem scanEarly_eq_scanFull (normQ : String) (threshold : ℚ) (topK : Nat) :
    ∀ (cands : List String) (scored : List (String × ℚ)),
      (∀ c ∈ cands, similarity normQ c ≠ 1) →
      scanEarly normQ threshold topK cands scored = scanFull normQ threshold cands scored
  | [], _, _ => rfl
  | cand :: rest, scored, h => by
    have hrest : ∀ c ∈ rest, similarity normQ c ≠ 1 :=
      fun c hc => h c (List.mem_cons_of_mem _ hc)
    simp only [scanEarly, scanFull]
    by_cases hp : pruneTest normQ cand threshold = true
    · rw [if_pos hp, if_pos hp]
      exact scanEarly_eq_scanFull normQ threshold topK rest scored hrest
    · rw [if_neg hp, if_neg hp]
      by_cases hts : threshold ≤ similarity normQ cand
      · rw [if_pos hts, if_pos hts]
        have hbreak : ¬(similarity normQ cand = 1 ∧
            topK ≤ (scored ++ [(cand, similarity normQ cand)]).length) :=
          fun hcon => h cand (List.mem_cons_self _ _) hcon.1
        rw [if_neg hbreak]
        exact scanEarly_eq_scanFull normQ threshold topK rest _ hrest
      · rw [if_neg hts, if_neg hts]
        exact scanEarly_eq_scanFull normQ threshold topK rest scored hrest

set_option maxRecDepth 4000 in
/-- C6.  The claim says the early exit returns exactly the full-scan
result.  It does not: on earlyExitIndex with query whose tokens match
both candidates perfectly, top_k 1 stops the scan after the first
candidate and returns id Z, while the full scan also scores the second
candidate and the final ranking (same score, same stripped length,
smaller id) puts id A first. -/
theorem c6_early_exit_diverges :
    lookupIds ("c b a") earlyExitIndex 0 1 = LookupReturn.triple ["Z"] ["a c b"] [1] ∧
      fullScanLookup ("c b a") earlyExitIndex 0 1 =
        LookupReturn.triple ["A"] ["b a c"] [1] := by
  have hsim1 : similarity ("c b a") ("a c b") = 1 := by
    have h : similarity ("c b a") ("a c b") =
        2 * ((5:ℕ):ℚ) / (((5:ℕ):ℚ) + ((5:ℕ):ℚ)) := rfl
    rw [h]; norm_num
  have hsim2 : similarity ("c b a") ("b a c") = 1 := by
    have h : similarity ("c b a") ("b a c") =
        2 * ((5:ℕ):ℚ) / (((5:ℕ):ℚ) + ((5:ℕ):ℚ)) := rfl
    rw [h]; norm_num
  have hp1 : pruneTest ("c b a") ("a c b") 0 = false := by
    unfold pruneTest
    rw [show String.length ("c b a") = 5 from rfl, show String.length ("a c b") = 5 from rfl]
    simp only [decide_eq_false_iff_not]
    norm_num
  have hp2 : pruneTest ("c b a") ("b a c") 0 = false := by
    unfold pruneTest
    rw [show String.length ("c b a") = 5 from rfl, show String.length ("b a c") = 5 from rfl]
    simp only [decide_eq_false_iff_not]
    norm_num
  constructor
  · have e1 : lookupIds ("c b a") earlyExitIndex 0 1 =
        fuzzyRank earlyExitIndex 1
          (scanEarly ("c b a") 0 1 ["a c b", "b a c"] []) := rfl
    have hscan : scanEarly ("c b a") 0 1 ["a c b", "b a c"] [] = [("a c b", 1)] := by
      simp only [scanEarly, hp1, hsim1]
      norm_num
    rw [e1, hscan]
    rfl
  · have e2 : fullScanLookup ("c b a") earlyExitIndex 0 1 =
        fuzzyRank earlyExitIndex 1
          (scanFull ("c b a") 0 ["a c b", "b a c"] []) := rfl
    have hscan : scanFull ("c b a") 0 ["a c b", "b a c"] [] =
        [("a c b", 1), ("b a c", 1)] := by
      simp only [scanFull, hp1, hp2, hsim1, hsim2]
      norm_num
    rw [e2, hscan]
    rfl

/-- C6 amended: the early exit is result-preserving when no candidate
attains a perfect score against the normalized query (the break then
never fires); with perfect-scoring candidates present it can change the
returned list, as the counterexample shows. -/
theorem c6_equiv_without_perfect_match (query : String) (index : NameIndex)
    (threshold : ℚ) (topK : Nat)
    (h : ∀ c ∈ index.candidates, similarity (normalizeName query) c ≠ 1) :
    lookupIds query index threshold topK = fullScanLookup query index threshold topK := by
  unfold lookupIds fullScanLookup
  by_cases hq : pyStrip query = ""
  · rw [if_pos hq, if_pos hq]
  · rw [if_neg hq, if_neg hq]
    rcases hopt : alookup index.name_to_ids (normalizeName query) with _ | ids
    · simp only [hopt]
      rw [scanEarly_eq_scanFull (normalizeName query) threshold topK index.candidates [] h]
    · simp only [hopt]

/-- Witness for C6 amended at a query with no perfect-scoring
candidate. -/
theorem c6_equiv_without_perfect_match_witness :
    (∀ c ∈ aspirinIndex.candidates, similarity (normalizeName ("!!!")) c ≠ 1) ∧
      lookupIds ("!!!") aspirinIndex 0 5 = fullScanLookup ("!!!") aspirinIndex 0 5 :=
  ⟨by decide, c6_equiv_without_perfect_match ("!!!") aspirinIndex 0 5 (by decide)⟩

/-- C5 counterexample.  The claim asserts symmetry and that
similarity(a, a) is 1.0 for every non-empty string a.  Both fail: the
non-empty string consisting of one exclamation mark normalizes to the
empty string, so its self-similarity is 0.0; and the SequenceMatcher
ratio is not symmetric, as the pair aba, babba shows (3/4 one way, 1/2
the other). -/
theorem c5_similarity_claim_fails :
    ("!" ≠ "") ∧ similarity ("!") ("!") = 0 ∧
      similarity ("aba") ("babba") ≠ similarity ("babba") ("aba") := by
  refine ⟨by decide, rfl, ?_⟩
  have h1 : similarity ("aba") ("babba") =
      2 * ((3:ℕ):ℚ) / (((3:ℕ):ℚ) + ((5:ℕ):ℚ)) := rfl
  have h2 : similarity ("babba") ("aba") =
      2 * ((2:ℕ):ℚ) / (((5:ℕ):ℚ) + ((3:ℕ):ℚ)) := rfl
  rw [h1, h2]
  norm_num

/-- Shape of the exact path: three parallel lists of equal length, at
most top_k entries. -/
theorem exactPath_shape (index : NameIndex) (normQ : String) (topK : Nat)
    (ids : List String) :
    ∃ outIds names scores, exactPath index normQ topK ids =
        LookupReturn.triple outIds names scores ∧
      names.length = outIds.length ∧ scores.length = outIds.length ∧
      outIds.length ≤ topK := by
  unfold exactPath
  refine ⟨_, _, _, rfl, ?_, ?_, ?_⟩
  · rw [List.length_map]
  · rw [List.length_replicate]
  · rw [List.length_map, List.length_take]
    exact min_le_left _ _

/-- Shape of the fuzzy ranking: three parallel lists of equal length, at
most top_k entries. -/
theorem fuzzyRank_shape (index : NameIndex) (topK : Nat)
    (scored : List (String × ℚ)) :
    ∃ outIds names scores, fuzzyRank index topK scored =
        LookupReturn.triple outIds names scores ∧
      names.length = outIds.length ∧ scores.length = outIds.length ∧
      outIds.length ≤ topK := by
  unfold fuzzyRank
  by_cases hs : scored = []
  · rw [if_pos hs]
    exact ⟨[], [], [], rfl, rfl, rfl, Nat.zero_le _⟩
  · rw [if_neg hs]
    refine ⟨_, _, _, rfl, ?_, ?_, ?_⟩
    · rw [List.length_map, List.length_map]
    · rw [List.length_map, List.length_map]
    · rw [List.length_map, List.length_take]
      exact min_le_left _ _

/-- C10.  For every query with at least one non-whitespace character and
every top_k, lookup_ids returns a triple of three lists of equal length,
and that length is at most top_k. -/
theorem c10_result_shape (query : String) (index : NameIndex) (threshold : ℚ)
    (topK : Nat) (h : pyStrip query ≠ "") :
    ∃ ids names scores, lookupIds query index threshold topK =
        LookupReturn.triple ids names scores ∧
      names.length = ids.length ∧ scores.length = ids.length ∧
      ids.length ≤ topK := by
  unfold lookupIds
  rw [if_neg h]
  rcases hopt : alookup index.name_to_ids (normalizeName query) with _ | ids
  · simp only [hopt]
    exact fuzzyRank_shape index topK _
  · simp only [hopt]
    exact exactPath_shape index (normalizeName query) topK ids

/-- Witness for C10 at a non-blank query. -/
theorem c10_result_shape_witness :
    pyStrip ("aspirin") ≠ "" ∧
      ∃ ids names scores, lookupIds ("aspirin") aspirinIndex 0 5 =
          LookupReturn.triple ids names scores ∧
        names.length = ids.length ∧ scores.length = ids.length ∧
        ids.length ≤ 5 :=
  ⟨by decide, c10_result_shape ("aspirin") aspirinIndex 0 5 (by decide)⟩

/-- Minimum of a list of naturals, none on the empty list. -/
def listMinimum : List Nat → Option Nat
  | [] => none
  | x :: xs =>
    match listMinimum xs with
    | none => some x
    | some m => some (min x m)

/-- Merge of two optional minima. -/
def optMin : Option Nat → Option Nat → Option Nat
  | none, b => b
  | some x, none => some x
  | some x, some y => some (min x y)

/-- The claim-side shortest associated name length: the minimum length
over all candidates of the index that map to the given id (none when no
candidate does, matching the float infinity of the code). -/
def claimShortestLen (index : NameIndex) (acc : String) : Option Nat :=
  listMinimum
    ((index.candidates.filter
      (fun c => listHas ((alookup index.name_to_ids c).getD []) acc)).map
        String.length)

/-- The sort order the claim describes on ids of an exact hit: shorter
shortest-associated-name first, then id ascending. -/
def claimExactLe (index : NameIndex) (a b : String) : Prop :=
  optNatLt (claimShortestLen index a) (claimShortestLen index b) = true ∨
    (claimShortestLen index a = claimShortestLen index b ∧ strLe a b = true)

theorem listMinimum_cons (x : Nat) (xs : List Nat) :
    listMinimum (x :: xs) = optMin (some x) (listMinimum xs) := by
  cases h : listMinimum xs <;> simp [listMinimum, optMin, h]

theorem optMin_assoc (a b c : Option Nat) :
    optMin (optMin a b) c = optMin a (optMin b c) := by
  cases a <;> cases b <;> cases c <;> simp [optMin, min_assoc]

theorem shortestAssocLen_fold (index : NameIndex) (acc : String) :
    ∀ (cands : List String) (best : Option Nat),
      cands.foldl
        (fun best cand =>
          if listHas ((alookup index.name_to_ids cand).getD []) acc then
            match best with
            | none => some cand.length
            | some m => if cand.length < m then some cand.length else best
          else best)
        best =
      optMin best
        (listMinimum
          ((cands.filter
            (fun c => listHas ((alookup index.name_to_ids c).getD []) acc)).map
              String.length))
  | [], best => by cases best <;> rfl
  | cand :: rest, best => by
    rw [List.foldl_cons]
    by_cases hc : listHas ((alookup index.name_to_ids cand).getD []) acc = true
    · rw [if_pos hc, List.filter_cons]
      rw [if_pos hc, List.map_cons]
      rw [shortestAssocLen_fold index acc rest]
      rw [listMinimum_cons, ← optMin_assoc]
      congr 1
      cases best with
      | none => rfl
      | some m =>
        simp only [optMin]
        by_cases hlt : cand.length < m
        · rw [if_pos hlt, min_eq_right (le_of_lt hlt)]
        · rw [if_neg hlt, min_eq_left (Nat.le_of_not_lt hlt)]
    · rw [if_neg hc, List.filter_cons]
      rw [if_neg hc]
      exact shortestAssocLen_fold index acc rest best

/-- The per-id length computed by the exact-path loop is exactly the
minimum the claim describes. -/
theorem shortestAssocLen_eq_claim (index : NameIndex) (acc : String) :
    shortestAssocLen index acc = claimShortestLen index acc := by
  unfold shortestAssocLen claimShortestLen
  rw [shortestAssocLen_fold index acc index.candidates none]
  rfl

/-- C2.  An exact hit returns the ids of the hit key sorted by (shortest
associated candidate-name length ascending, id ascending), truncated to
top_k; each matched name is the stored primary name of the id with the
normalized query as fallback, and every score is exactly 1.0. -/
theorem c2_exact_path_results (query : String) (index : NameIndex) (threshold : ℚ)
    (topK : Nat) (idList : List String)
    (hq : pyStrip query ≠ "")
    (hk : alookup index.name_to_ids (normalizeName query) = some idList) :
    ∃ sortedIds : List String,
      sortedIds.Perm idList ∧
      sortedIds.Pairwise (claimExactLe index) ∧
      lookupIds query index threshold topK =
        LookupReturn.triple (sortedIds.take topK)
          ((sortedIds.take topK).map
            (fun acc => (alookup index.id_to_primary_name acc).getD (normalizeName query)))
          (List.replicate (sortedIds.take topK).length 1) := by
  unfold lookupIds
  rw [if_neg hq]
  simp only [hk]
  simp only [exactPath]
  refine ⟨(List.insertionSort exactLeP
    (idList.map (fun acc => (acc, shortestAssocLen index acc)))).map Prod.fst,
    ?_, ?_, ?_⟩
  · have hperm := (List.perm_insertionSort exactLeP
      (idList.map (fun acc => (acc, shortestAssocLen index acc)))).map Prod.fst
    have hfst : ∀ l : List String,
        (l.map (fun acc => (acc, shortestAssocLen index acc))).map Prod.fst = l := by
      intro l
      induction l with
      | nil => rfl
      | cons a l ih => simp [ih]
    rwa [hfst idList] at hperm
  · have hsorted := List.sorted_insertionSort exactLeP
      (idList.map (fun acc => (acc, shortestAssocLen index acc)))
    have hmem : ∀ p ∈ List.insertionSort exactLeP
        (idList.map (fun acc => (acc, shortestAssocLen index acc))),
        p.2 = shortestAssocLen index p.1 := by
      intro p hp
      have hp2 := (List.perm_insertionSort exactLeP _).mem_iff.mp hp
      rcases List.mem_map.mp hp2 with ⟨a, _, rfl⟩
      rfl
    rw [List.pairwise_map]
    refine List.Pairwise.imp_of_mem ?_ hsorted
    intro p q hp hq' hle
    have e1 := hmem p hp
    have e2 := hmem q hq'
    unfold exactLeP exactLe at hle
    rw [Bool.or_eq_true, Bool.and_eq_true, decide_eq_true_eq] at hle
    unfold claimExactLe
    rw [← shortestAssocLen_eq_claim, ← shortestAssocLen_eq_claim, ← e1, ← e2]
    exact hle
  · rw [List.map_take]

/-- Witness for C2 at a concrete exact hit. -/
theorem c2_exact_path_results_witness :
    pyStrip ("aspirin") ≠ "" ∧
      alookup aspirinIndex.name_to_ids (normalizeName ("aspirin")) = some ["PA1"] ∧
      ∃ sortedIds : List String,
        sortedIds.Perm ["PA1"] ∧
        sortedIds.Pairwise (claimExactLe aspirinIndex) ∧
        lookupIds ("aspirin") aspirinIndex 0 5 =
          LookupReturn.triple (sortedIds.take 5)
            ((sortedIds.take 5).map
              (fun acc =>
                (alookup aspirinIndex.id_to_primary_name acc).getD
                  (normalizeName ("aspirin"))))
            (List.replicate (sortedIds.take 5).length 1) :=
  ⟨by decide, rfl,
    c2_exact_path_results ("aspirin") aspirinIndex 0 5 ["PA1"] (by decide) rfl⟩

/-- The last element of a list, as an option. -/
def lastOpt {α : Type} : List α → Option α
  | [] => none
  | x :: rest =>
    match lastOpt rest with
    | none => some x
    | some v => some v

/-- The primary-name values contributed for a given id, one per row of
the table whose stripped ID equals the id and which has a non-empty
primary value (in row order, rows read without raising). -/
def primaryContrib (columns : List String) (idCol : String) (primaryCols : List String)
    (rows : List Row) (acc : String) : List String :=
  rows.filterMap
    (fun row =>
      match getIdStrip row idCol with
      | .ok a => if a = acc ∧ a ≠ "" then rowPrimaryName columns row primaryCols else none
      | .error _ => none)

theorem alookup_dictSet (m : List (String × String)) (k v key : String) :
    alookup (dictSet m k v) key = if k = key then some v else alookup m key := by
  induction m with
  | nil => simp only [dictSet, alookup]
  | cons p rest ih =>
    obtain ⟨a, b⟩ := p
    simp only [dictSet]
    by_cases hak : a = k
    · rw [if_pos hak]
      subst hak
      simp only [alookup]
      by_cases hk : a = key
      · rw [if_pos hk, if_pos hk]
      · rw [if_neg hk, if_neg hk, if_neg hk]
    · rw [if_neg hak]
      simp only [alookup, ih]
      by_cases hkey : a = key
      · have hk : ¬ k = key := fun hcon => hak (hkey.trans hcon.symm)
        rw [if_pos hkey, if_neg hk, if_pos hkey]
      · rw [if_neg hkey, if_neg hkey]

/-- Unfolding of the contribution list when the head row is skipped:
its ID read raises, or the ID does not select it, or it has no primary
value. -/
theorem primaryContrib_cons_none (columns : List String) (idCol : String)
    (primaryCols : List String) (row : Row) (rows : List Row) (acc : String)
    (h : (match getIdStrip row idCol with
          | .ok a =>
            if a = acc ∧ a ≠ "" then rowPrimaryName columns row primaryCols else none
          | .error _ => none) = (none : Option String)) :
    primaryContrib columns idCol primaryCols (row :: rows) acc =
      primaryContrib columns idCol primaryCols rows acc := by
  simp only [primaryContrib, List.filterMap_cons, h]

/-- Unfolding of the contribution list when the head row contributes a
primary value. -/
theorem primaryContrib_cons_some (columns : List String) (idCol : String)
    (primaryCols : List String) (row : Row) (rows : List Row) (acc : String) (p : String)
    (h : (match getIdStrip row idCol with
          | .ok a =>
            if a = acc ∧ a ≠ "" then rowPrimaryName columns row primaryCols else none
          | .error _ => none) = some p) :
    primaryContrib columns idCol primaryCols (row :: rows) acc =
      p :: primaryContrib columns idCol primaryCols rows acc := by
  simp only [primaryContrib, List.filterMap_cons, h]

/-- Along a successful row loop, the recorded primary name of an id is
the last contribution for it, falling back to the incoming state. -/
theorem buildRows_primary (columns primaryCols listCols : List String)
    (idCol acc : String) :
    ∀ (rows : List Row) (st res : BuildState),
      buildRows columns primaryCols listCols idCol rows st = .ok res →
      alookup res.2 acc =
        match lastOpt (primaryContrib columns idCol primaryCols rows acc) with
        | some v => some v
        | none => alookup st.2 acc
  | [], st, res, h => by
    cases h
    rfl
  | row :: rest, st, res, h => by
    rw [buildRows] at h
    rcases hstep : buildStep columns primaryCols listCols idCol st row with e | st2
    · rw [hstep] at h
      cases h
    · rw [hstep] at h
      have ih := buildRows_primary columns primaryCols listCols idCol acc rest st2 res h
      unfold buildStep at hstep
      rcases hid : getIdStrip row idCol with e | a
      · simp only [hid] at hstep
        cases hstep
      · simp only [hid] at hstep
        by_cases ha : a = ""
        · rw [if_pos ha] at hstep
          cases hstep
          rw [primaryContrib_cons_none columns idCol primaryCols row rest acc
            (by simp [hid, ha])]
          exact ih
        · rw [if_neg ha] at hstep
          by_cases hacc : a = acc
          · subst hacc
            rcases hprim : rowPrimaryName columns row primaryCols with _ | p
            · rw [hprim] at hstep
              cases hstep
              rw [primaryContrib_cons_none columns idCol primaryCols row rest a
                (by simp [hid, ha, hprim])]
              exact ih
            · rw [hprim] at hstep
              cases hstep
              rw [primaryContrib_cons_some columns idCol primaryCols row rest a p
                (by simp [hid, ha, hprim])]
              rw [ih]
              cases hlast : lastOpt (primaryContrib columns idCol primaryCols rest a) with
              | none =>
                rw [lastOpt, hlast]
                rw [alookup_dictSet, if_pos rfl]
              | some v =>
                rw [lastOpt, hlast]
          · have hcond : ¬ (a = acc ∧ a ≠ "") := fun hcon => hacc hcon.1
            rw [primaryContrib_cons_none columns idCol primaryCols row rest acc
              (by simp [hid, hacc])]
            rw [ih]
            rcases hprim : rowPrimaryName columns row primaryCols with _ | p
            · rw [hprim] at hstep
              cases hstep
              rfl
            · rw [hprim] at hstep
              cases hstep
              cases lastOpt (primaryContrib columns idCol primaryCols rest acc) with
              | none =>
                show alookup (dictSet st.2 a p) acc = alookup st.2 acc
                rw [alookup_dictSet, if_neg hacc]
              | some v => rfl

/-- The degenerate two-row table of the primary-name claim: the same ID
on both rows, with primary names x then y. -/
def tblC4 : Table :=
  { columns := ["id", "Name"],
    rows := [[("id", some ("A")), ("Name", some ("x"))],
             [("id", some ("A")), ("Name", some ("y"))]] }

/-- C4 counterexample.  The claim says the first writer wins: the
recorded primary name of an ID comes from the earliest row bearing it.
The assignment at line 177 of lookup_utils.py is unconditional, so the
build of tblC4 records y, the second row's value, although the earliest
row's primary display name is x. -/
theorem c4_first_writer_overwritten :
    (buildFromTable tblC4 ("id") ["Name"] []).map
        (fun idx => alookup idx.id_to_primary_name ("A")) =
      Except.ok (some ("y")) ∧
      rowPrimaryName tblC4.columns [("id", some ("A")), ("Name", some ("x"))] ["Name"] =
        some ("x") ∧
      ("y" : String) ≠ "x" :=
  ⟨rfl, rfl, by decide⟩

/-- C4 amended: the last writer wins.  On a successful build, the
recorded primary display name of each id is the first non-empty trimmed
primary-column value of the LAST row bearing that id that has any such
value; rows with the id but no non-empty primary value leave the record
unchanged, and an id with no contributing row is absent. -/
theorem c4_last_writer_wins (tbl : Table) (idCol : String)
    (primaryCols listCols : List String) (idx : NameIndex) (acc : String)
    (hbuild : buildFromTable tbl idCol primaryCols listCols = .ok idx) :
    alookup idx.id_to_primary_name acc =
      match lastOpt (primaryContrib tbl.columns idCol primaryCols tbl.rows acc) with
      | some v => some v
      | none => none := by
  unfold buildFromTable at hbuild
  by_cases hcol : listHas tbl.columns idCol = true
  · rw [if_pos hcol] at hbuild
    rcases hrows : buildRows tbl.columns primaryCols listCols idCol tbl.rows ([], []) with
      e | st
    · rw [hrows] at hbuild
      cases hbuild
    · rw [hrows] at hbuild
      cases hbuild
      have := buildRows_primary tbl.columns primaryCols listCols idCol acc tbl.rows
        ([], []) st hrows
      simpa using this
  · rw [if_neg hcol] at hbuild
    cases hbuild

/-- The index the build of tblC4 produces. -/
def idxC4 : NameIndex :=
  { name_to_ids := [("x", ["A"]), ("y", ["A"])],
    candidates := ["x", "y"],
    id_to_primary_name := [("A", "y")] }

/-- Witness for C4 amended at the two-row table. -/
theorem c4_last_writer_wins_witness :
    buildFromTable tblC4 ("id") ["Name"] [] = .ok idxC4 ∧
      alookup idxC4.id_to_primary_name ("A") =
        match lastOpt (primaryContrib tblC4.columns ("id") ["Name"] tblC4.rows ("A")) with
        | some v => some v
        | none => none :=
  ⟨rfl, c4_last_writer_wins tblC4 ("id") ["Name"] [] idxC4 ("A") rfl⟩

/-- A table with its ID column present whose first row has an empty ID
field: read_csv parses the empty field to NaN (none). -/
def tblC8 : Table :=
  { columns := ["id", "Name"],
    rows := [[("id", none), ("Name", some ("Aspirin"))],
             [("id", some ("A")), ("Name", some ("x"))]] }

/-- The same table with a whitespace-only (hence string) ID field in the
first row. -/
def tblC8w : Table :=
  { columns := ["id", "Name"],
    rows := [[("id", some (" ")), ("Name", some ("Aspirin"))],
             [("id", some ("A")), ("Name", some ("x"))]] }

/-- C8.  The claim says a build errors exactly when the ID column is
absent, and that rows with an empty or whitespace-only ID are skipped
silently.  Whitespace-only IDs are indeed skipped, but a truly empty ID
field is parsed to NaN by read_csv (na_values contains the empty
string), the unguarded strip call of line 162 then raises an
AttributeError, and the build fails although the ID column is present. -/
theorem c8_empty_id_cell_crashes_build :
    listHas tblC8.columns ("id") = true ∧
      buildFromTable tblC8 ("id") ["Name"] [] =
        Except.error (BuildError.attributeError ("float object has no attribute strip")) ∧
      buildFromTable tblC8w ("id") ["Name"] [] =
        Except.ok { name_to_ids := [("x", ["A"])],
                    candidates := ["x"],
                    id_to_primary_name := [("A", "x")] } :=
  ⟨rfl, rfl, rfl⟩

/-- The key and value invariants of a name_to_ids dictionary: every key
is a non-empty normalized name and every id set is non-empty. -/
def goodMap (m : List (String × List String)) : Prop :=
  ∀ p ∈ m, (p.1 ≠ "" ∧ ∃ raw, p.1 = normalizeName raw) ∧ p.2 ≠ []

theorem addNameId_good {m : List (String × List String)} {norm acc : String}
    (hm : goodMap m) (hnorm : norm ≠ "") (hraw : ∃ raw, norm = normalizeName raw) :
    goodMap (addNameId m norm acc) := by
  induction m with
  | nil =>
    intro p hp
    rcases List.mem_singleton.mp hp with rfl
    exact ⟨⟨hnorm, hraw⟩, by simp⟩
  | cons q rest ih =>
    obtain ⟨k, ids⟩ := q
    have hq := hm (k, ids) (List.mem_cons_self _ _)
    have hrest : goodMap rest := fun p hp => hm p (List.mem_cons_of_mem _ hp)
    simp only [addNameId]
    by_cases hk : k = norm
    · rw [if_pos hk]
      intro p hp
      rcases List.mem_cons.mp hp with rfl | hp2
      · refine ⟨hq.1, ?_⟩
        by_cases hh : listHas ids acc = true
        · rw [if_pos hh]; exact hq.2
        · rw [if_neg hh]; simp
      · exact hrest p hp2
    · rw [if_neg hk]
      intro p hp
      rcases List.mem_cons.mp hp with rfl | hp2
      · exact hq
      · exact ih hrest p hp2

theorem addRowNames_fold_good (acc : String) :
    ∀ (names : List String) (st : List String × List (String × List String)),
      goodMap st.2 →
      goodMap
        ((names.foldl
          (fun st nm =>
            let norm := normalizeName nm
            if norm = "" ∨ listHas st.1 norm then st
            else (st.1 ++ [norm], addNameId st.2 norm acc))
          st)).2
  | [], _, hst => hst
  | nm :: rest, st, hst => by
    rw [List.foldl_cons]
    apply addRowNames_fold_good acc rest
    by_cases hc : normalizeName nm = "" ∨ listHas st.1 (normalizeName nm) = true
    · simpa [hc] using hst
    · have hne : normalizeName nm ≠ "" := fun hcon => hc (Or.inl hcon)
      simp only [if_neg hc]
      exact addNameId_good hst hne ⟨nm, rfl⟩

theorem addRowNames_good {acc : String} {names : List String}
    {m : List (String × List String)} (hm : goodMap m) :
    goodMap (addRowNames acc names m) :=
  addRowNames_fold_good acc names ([], m) hm

theorem buildRows_good (columns primaryCols listCols : List String) (idCol : String) :
    ∀ (rows : List Row) (st res : BuildState),
      buildRows columns primaryCols listCols idCol rows st = .ok res →
      goodMap st.1 → goodMap res.1
  | [], st, res, h, hst => by
    cases h
    exact hst
  | row :: rest, st, res, h, hst => by
    rw [buildRows] at h
    rcases hstep : buildStep columns primaryCols listCols idCol st row with e | st2
    · rw [hstep] at h
      cases h
    · rw [hstep] at h
      refine buildRows_good columns primaryCols listCols idCol rest st2 res h ?_
      unfold buildStep at hstep
      rcases hid : getIdStrip row idCol with e | a
      · simp only [hid] at hstep
        cases hstep
      · simp only [hid] at hstep
        by_cases ha : a = ""
        · rw [if_pos ha] at hstep
          cases hstep
          exact hst
        · rw [if_neg ha] at hstep
          cases hstep
          exact addRowNames_good hst

/-- C9.  Every successfully built index satisfies the stated invariants:
each name_to_ids key is a non-empty normalized name, each id set is
non-empty, and candidates is the ascending-sorted sequence of all keys
(a permutation of the keys that is sorted under the Python string
order). -/
theorem c9_built_index_invariants (tbl : Table) (idCol : String)
    (primaryCols listCols : List String) (idx : NameIndex)
    (h : buildFromTable tbl idCol primaryCols listCols = .ok idx) :
    (∀ p ∈ idx.name_to_ids, (p.1 ≠ "" ∧ ∃ raw, p.1 = normalizeName raw) ∧ p.2 ≠ []) ∧
      idx.candidates.Perm (idx.name_to_ids.map Prod.fst) ∧
      idx.candidates.Pairwise strLeP := by
  unfold buildFromTable at h
  by_cases hcol : listHas tbl.columns idCol = true
  · rw [if_pos hcol] at h
    rcases hrows : buildRows tbl.columns primaryCols listCols idCol tbl.rows ([], []) with
      e | st
    · rw [hrows] at h
      cases h
    · rw [hrows] at h
      cases h
      refine ⟨?_, ?_, ?_⟩
      · exact buildRows_good tbl.columns primaryCols listCols idCol tbl.rows ([], []) st
          hrows (by intro p hp; cases hp)
      · exact List.perm_insertionSort strLeP _
      · exact List.sorted_insertionSort strLeP _
  · rw [if_neg hcol] at h
    cases h

/-- Witness for C9 at the concrete two-row build. -/
theorem c9_built_index_invariants_witness :
    buildFromTable tblC4 ("id") ["Name"] [] = .ok idxC4 ∧
      ((∀ p ∈ idxC4.name_to_ids,
          (p.1 ≠ "" ∧ ∃ raw, p.1 = normalizeName raw) ∧ p.2 ≠ []) ∧
        idxC4.candidates.Perm (idxC4.name_to_ids.map Prod.fst) ∧
        idxC4.candidates.Pairwise strLeP) :=
  ⟨rfl, c9_built_index_invariants tblC4 ("id") ["Name"] [] idxC4 rfl⟩

/-! Self-similarity of the SequenceMatcher model: the matching-block sum
of a list against itself is its full length, for every junk predicate.
The key steps: the longest-match scan on an identical pair always picks
a diagonal block, the extension loops keep it diagonal, and the
recursion then splits into two smaller identical pairs. -/

theorem runLen_le_left (keep : Char → Bool) :
    ∀ a b : List Char, runLen keep a b ≤ a.length
  | [], _ => by simp [runLen]
  | _ :: _, [] => by simp [runLen]
  | x :: xs, y :: ys => by
    rw [runLen]
    by_cases h : x = y ∧ keep y = true
    · rw [if_pos h]
      exact Nat.succ_le_succ (runLen_le_left keep xs ys)
    · rw [if_neg h]
      exact Nat.zero_le _

/-- A common run of a against b is no longer than the self-run of b. -/
theorem runLen_diag_right (keep : Char → Bool) :
    ∀ a b : List Char, runLen keep a b ≤ runLen keep b b
  | [], _ => Nat.zero_le _
  | _ :: _, [] => Nat.zero_le _
  | x :: xs, y :: ys => by
    rw [runLen]
    by_cases h : x = y ∧ keep y = true
    · rw [if_pos h]
      have : runLen keep (y :: ys) (y :: ys) = runLen keep ys ys + 1 := by
        rw [runLen, if_pos ⟨rfl, h.2⟩]
      rw [this]
      exact Nat.succ_le_succ (runLen_diag_right keep xs ys)
    · rw [if_neg h]
      exact Nat.zero_le _

/-- A common run of a against b is no longer than the self-run of a. -/
theorem runLen_diag_left (keep : Char → Bool) :
    ∀ a b : List Char, runLen keep a b ≤ runLen keep a a
  | [], _ => Nat.zero_le _
  | _ :: _, [] => Nat.zero_le _
  | x :: xs, y :: ys => by
    rw [runLen]
    by_cases h : x = y ∧ keep y = true
    · rw [if_pos h]
      have : runLen keep (x :: xs) (x :: xs) = runLen keep xs xs + 1 := by
        rw [runLen, if_pos ⟨rfl, h.1 ▸ h.2⟩]
      rw [this]
      exact Nat.succ_le_succ (runLen_diag_left keep xs ys)
    · rw [if_neg h]
      exact Nat.zero_le _

/-- Invariants of the longest-match fold over a scan range: the kept
size only grows, it dominates every scanned cell, and a changed result
is the first cell attaining its run length. -/
theorem bestFold_spec (keep : Char → Bool) (a b : List Char) :
    ∀ (len s : Nat) (acc : Nat × Nat × Nat),
      acc.2.2 ≤ ((List.range' s len).foldl (bestStep keep a b) acc).2.2 ∧
      (∀ t, s ≤ t → t < s + len →
        cellRun keep a b t ≤ ((List.range' s len).foldl (bestStep keep a b) acc).2.2) ∧
      ((List.range' s len).foldl (bestStep keep a b) acc = acc ∨
        ∃ t0, s ≤ t0 ∧ t0 < s + len ∧
          (List.range' s len).foldl (bestStep keep a b) acc =
            (t0 / b.length, t0 % b.length, cellRun keep a b t0) ∧
          acc.2.2 < cellRun keep a b t0 ∧
          ∀ t, s ≤ t → t < t0 → cellRun keep a b t < cellRun keep a b t0)
  | 0, s, acc => by
    refine ⟨le_refl _, ?_, Or.inl rfl⟩
    intro t ht1 ht2
    omega
  | len + 1, s, acc => by
    have hcons : List.range' s (len + 1) = s :: List.range' (s + 1) len := rfl
    rw [hcons, List.foldl_cons]
    obtain ⟨ihA, ihB, ihC⟩ := bestFold_spec keep a b len (s + 1) (bestStep keep a b acc s)
    have hstep1 : acc.2.2 ≤ (bestStep keep a b acc s).2.2 := by
      unfold bestStep
      by_cases hc : acc.2.2 < cellRun keep a b s
      · rw [if_pos hc]
        exact le_of_lt hc
      · rw [if_neg hc]
    have hstep2 : cellRun keep a b s ≤ (bestStep keep a b acc s).2.2 := by
      unfold bestStep
      by_cases hc : acc.2.2 < cellRun keep a b s
      · rw [if_pos hc]
      · rw [if_neg hc]
        omega
    have hstep3 : bestStep keep a b acc s = acc ∨
        (bestStep keep a b acc s = (s / b.length, s % b.length, cellRun keep a b s) ∧
          acc.2.2 < cellRun keep a b s) := by
      unfold bestStep
      by_cases hc : acc.2.2 < cellRun keep a b s
      · rw [if_pos hc]
        exact Or.inr ⟨rfl, hc⟩
      · rw [if_neg hc]
        exact Or.inl rfl
    refine ⟨le_trans hstep1 ihA, ?_, ?_⟩
    · intro t ht1 ht2
      by_cases hts : t = s
      · subst hts
        exact le_trans hstep2 ihA
      · exact ihB t (by omega) (by omega)
    · rcases ihC with hC | ⟨t0, ht0a, ht0b, ht0eq, ht0lt, ht0first⟩
      · rcases hstep3 with hD | ⟨hD, hDlt⟩
        · rw [hC, hD]
          exact Or.inl rfl
        · refine Or.inr ⟨s, le_refl s, by omega, ?_, hDlt, ?_⟩
          · rw [hC, hD]
          · intro t ht1 ht2
            omega
      · refine Or.inr ⟨t0, by omega, by omega, ht0eq,
          lt_of_le_of_lt hstep1 ht0lt, ?_⟩
        intro t ht1 ht2
        by_cases hts : t = s
        · subst hts
          exact lt_of_le_of_lt hstep2 ht0lt
        · exact ht0first t (by omega) ht2

/-- The longest-match scan either finds nothing or returns the first
cell of maximal run length. -/
theorem findBest_spec (keep : Char → Bool) (a b : List Char) :
    (∀ t, t < a.length * b.length →
      cellRun keep a b t ≤ (findBest keep a b).2.2) ∧
    (findBest keep a b = (0, 0, 0) ∨
      ∃ t0, t0 < a.length * b.length ∧
        findBest keep a b = (t0 / b.length, t0 % b.length, cellRun keep a b t0) ∧
        0 < cellRun keep a b t0 ∧
        ∀ t, t < t0 → cellRun keep a b t < cellRun keep a b t0) := by
  obtain ⟨_, hB, hC⟩ := bestFold_spec keep a b (a.length * b.length) 0 (0, 0, 0)
  unfold findBest
  rw [List.range_eq_range']
  constructor
  · intro t ht
    exact hB t (Nat.zero_le t) (by omega)
  · rcases hC with h | ⟨t0, _, ht0b, ht0eq, ht0lt, ht0first⟩
    · exact Or.inl h
    · exact Or.inr ⟨t0, by omega, ht0eq, ht0lt,
        fun t ht => ht0first t (Nat.zero_le t) ht⟩

/-- On an identical pair the longest-match scan returns a diagonal
block (or nothing). -/
theorem findBest_self_diag (keep : Char → Bool) (l : List Char) :
    findBest keep l l = (0, 0, 0) ∨
      ∃ i k, findBest keep l l = (i, i, k) ∧ 0 < k ∧ i + k ≤ l.length := by
  obtain ⟨hmax, hform⟩ := findBest_spec keep l l
  rcases hform with h | ⟨t0, ht0b, ht0eq, ht0lt, ht0first⟩
  · exact Or.inl h
  · have hm : 0 < l.length := by
      rcases Nat.eq_zero_or_pos l.length with h0 | h0
      · rw [h0] at ht0b
        omega
      · exact h0
    set m := l.length with hmdef
    set i := t0 / m with hidef
    set j := t0 % m with hjdef
    have him : i < m := by
      rw [hidef]
      exact Nat.div_lt_iff_lt_mul hm |>.mpr ht0b
    have hjm : j < m := Nat.mod_lt t0 hm
    have ht0sum : m * i + j = t0 := Nat.div_add_mod t0 m
    have hcell : ∀ u v : Nat, u < m → v < m →
        cellRun keep l l (m * u + v) = runLen keep (l.drop u) (l.drop v) := by
      intro u v hu hv
      unfold cellRun
      have h1 : (m * u + v) / m = u := by
        rw [Nat.mul_add_div hm, Nat.div_eq_of_lt hv]
        omega
      have h2 : (m * u + v) % m = v := by
        rw [Nat.mul_add_mod, Nat.mod_eq_of_lt hv]
      rw [h1, h2]
    have hrun0 : cellRun keep l l t0 = runLen keep (l.drop i) (l.drop j) := by
      rw [← ht0sum]
      exact hcell i j him hjm
    rcases Nat.lt_trichotomy i j with hij | hij | hij
    · -- j larger: the diagonal cell (i, i) appears earlier and is at
      -- least as long, contradicting firstness
      exfalso
      have ht1 : m * i + i < t0 := by omega
      have hge : cellRun keep l l t0 ≤ cellRun keep l l (m * i + i) := by
        rw [hrun0, hcell i i him him]
        exact runLen_diag_left keep (l.drop i) (l.drop j)
      have := ht0first (m * i + i) ht1
      omega
    · refine Or.inr ⟨i, cellRun keep l l t0, ?_, ht0lt, ?_⟩
      · rw [ht0eq, hij]
      · rw [hrun0, ← hij]
        have := runLen_le_left keep (l.drop i) (l.drop i)
        rw [List.length_drop] at this
        omega
    · -- i larger: the diagonal cell (j, j) appears earlier
      exfalso
      have ht1 : m * j + j < t0 := by
        have : m * j < m * i := (mul_lt_mul_left hm).mpr hij
        omega
      have hge : cellRun keep l l t0 ≤ cellRun keep l l (m * j + j) := by
        rw [hrun0, hcell j j hjm hjm]
        exact runLen_diag_right keep (l.drop i) (l.drop j)
      have := ht0first (m * j + j) ht1
      omega

/-- On an identical pair the left extension stays diagonal and keeps
the block end fixed. -/
theorem extLeft_self_diag (test : Char → Bool) (l : List Char) :
    ∀ i k, ∃ i2 k2, extLeft test l l i i k = (i2, i2, k2) ∧ i2 + k2 = i + k ∧ i2 ≤ i
  | 0, k => ⟨0, k, rfl, rfl, le_refl 0⟩
  | i + 1, k => by
    rw [extLeft]
    rcases hg : l.get? i with _ | x
    · exact ⟨i + 1, k, rfl, rfl, le_refl _⟩
    · show ∃ i2 k2,
        (if test x = true ∧ x = x then extLeft test l l i i (k + 1)
          else (i + 1, i + 1, k)) = (i2, i2, k2) ∧
        i2 + k2 = i + 1 + k ∧ i2 ≤ i + 1
      by_cases ht : test x = true ∧ x = x
      · rw [if_pos ht]
        obtain ⟨i2, k2, he, hsum, hle⟩ := extLeft_self_diag test l i (k + 1)
        exact ⟨i2, k2, he, by omega, by omega⟩
      · rw [if_neg ht]
        exact ⟨i + 1, k, rfl, rfl, le_refl _⟩

/-- The right extension only grows the block. -/
theorem extRight_ge (test : Char → Bool) (a b : List Char) (i j : Nat) :
    ∀ (fuel k : Nat), k ≤ extRight test a b i j k fuel
  | 0, k => le_refl k
  | fuel + 1, k => by
    rw [extRight]
    rcases a.get? (i + k) with _ | x
    · exact le_refl k
    · rcases b.get? (j + k) with _ | y
      · exact le_refl k
      · show k ≤ if test y = true ∧ x = y then extRight test a b i j (k + 1) fuel else k
        by_cases ht : test y = true ∧ x = y
        · rw [if_pos ht]
          exact le_trans (Nat.le_succ k) (extRight_ge test a b i j fuel (k + 1))
        · rw [if_neg ht]

/-- On an identical pair the right extension never runs past the end. -/
theorem extRight_self_bound (test : Char → Bool) (l : List Char) (i : Nat) :
    ∀ (fuel k : Nat), i + k ≤ l.length →
      i + extRight test l l i i k fuel ≤ l.length
  | 0, k, h => h
  | fuel + 1, k, h => by
    rw [extRight]
    rcases hg : l.get? (i + k) with _ | x
    · exact h
    · have hlt : i + k < l.length := by
        by_contra hcon
        rw [List.get?_eq_none.mpr (by omega)] at hg
        cases hg
      show i + (if test x = true ∧ x = x then extRight test l l i i (k + 1) fuel else k) ≤
        l.length
      by_cases ht : test x = true ∧ x = x
      · rw [if_pos ht]
        exact extRight_self_bound test l i fuel (k + 1) (by omega)
      · rw [if_neg ht]
        exact h

/-- On a non-empty identical pair, find_longest_match returns a
diagonal block of positive size within bounds: either the scan found a
junk-free run, or everything in sight is junk and the junk extension
grabs the head. -/
theorem string_mk_data (s : String) : String.mk s.data = s := rfl

theorem findLongestMatch_self (junk : Char → Bool) (l : List Char) (hl : l ≠ []) :
    ∃ i k, findLongestMatch junk l l = (i, i, k) ∧ 1 ≤ k ∧ i + k ≤ l.length := by
  have hn : 0 < l.length := List.length_pos.mpr hl
  rcases findBest_self_diag (fun c => !junk c) l with h0 | ⟨i0, k0, h0, hk0, hik0⟩
  · -- the scan found nothing: the head character is junk
    obtain ⟨c, rest, rfl⟩ : ∃ c rest, l = c :: rest := by
      cases l with
      | nil => exact absurd rfl hl
      | cons c rest => exact ⟨c, rest, rfl⟩
    have hjc : junk c = true := by
      obtain ⟨hmax, _⟩ := findBest_spec (fun c => !junk c) (c :: rest) (c :: rest)
      have h00 : cellRun (fun c => !junk c) (c :: rest) (c :: rest) 0 = 0 := by
        have hx := hmax 0 (by
          simp only [List.length_cons]
          positivity)
        rw [h0] at hx
        simpa using hx
      unfold cellRun at h00
      simp only [Nat.zero_div, Nat.zero_mod, List.drop_zero] at h00
      rw [runLen] at h00
      by_cases hc : c = c ∧ (!junk c) = true
      · rw [if_pos hc] at h00
        omega
      · rcases Bool.eq_false_or_eq_true (junk c) with ht | hf
        · exact ht
        · exact absurd ⟨rfl, by simp [hf]⟩ hc
    have e2 : extRight (fun c => !junk c) (c :: rest) (c :: rest) 0 0 0
        (c :: rest).length = 0 := by
      have hf : (c :: rest).length = rest.length + 1 := by simp
      rw [hf, extRight]
      show (if (!junk c) = true ∧ c = c then
        extRight (fun c => !junk c) (c :: rest) (c :: rest) 0 0 1 rest.length else 0) = 0
      rw [if_neg (fun hcon => by rw [hjc] at hcon; simp at hcon)]
    have e0 : extLeft (fun c => !junk c) (c :: rest) (c :: rest) 0 0 0 = (0, 0, 0) := rfl
    have e4 : extLeft junk (c :: rest) (c :: rest) 0 0 0 = (0, 0, 0) := rfl
    have key : findLongestMatch junk (c :: rest) (c :: rest) =
        (0, 0, extRight junk (c :: rest) (c :: rest) 0 0 0 (c :: rest).length) := by
      unfold findLongestMatch
      rw [h0]
      dsimp only
      rw [e0]
      dsimp only
      rw [e2]
      rw [e4]
    rw [key]
    refine ⟨0, extRight junk (c :: rest) (c :: rest) 0 0 0 (c :: rest).length,
      rfl, ?_, ?_⟩
    · -- the junk extension grabs at least the head
      have hf : (c :: rest).length = rest.length + 1 := by simp
      rw [hf, extRight]
      show 1 ≤ if junk c = true ∧ c = c then
        extRight junk (c :: rest) (c :: rest) 0 0 1 rest.length else 0
      rw [if_pos ⟨hjc, rfl⟩]
      exact extRight_ge junk _ _ 0 0 rest.length 1
    · exact extRight_self_bound junk (c :: rest) 0 (c :: rest).length 0 (by omega)
  · -- the scan found a junk-free diagonal block; extensions keep it
    -- diagonal, of positive size, within bounds
    obtain ⟨i1, k1, e1, hsum1, hle1⟩ := extLeft_self_diag (fun c => !junk c) l i0 k0
    have hk1 : k0 ≤ k1 := by omega
    have hbound1 : i1 + k1 ≤ l.length := by omega
    have hk2ge : k1 ≤ extRight (fun c => !junk c) l l i1 i1 k1 l.length :=
      extRight_ge (fun c => !junk c) l l i1 i1 l.length k1
    have hk2bound : i1 + extRight (fun c => !junk c) l l i1 i1 k1 l.length ≤ l.length :=
      extRight_self_bound (fun c => !junk c) l i1 l.length k1 hbound1
    obtain ⟨i3, k3, e3, hsum3, hle3⟩ := extLeft_self_diag junk l i1
      (extRight (fun c => !junk c) l l i1 i1 k1 l.length)
    have key : findLongestMatch junk l l =
        (i3, i3, extRight junk l l i3 i3 k3 l.length) := by
      unfold findLongestMatch
      rw [h0]
      dsimp only
      rw [e1]
      dsimp only
      rw [e3]
    rw [key]
    refine ⟨i3, extRight junk l l i3 i3 k3 l.length, rfl, ?_, ?_⟩
    · have := extRight_ge junk l l i3 i3 l.length k3
      omega
    · exact extRight_self_bound junk l i3 l.length k3 (by omega)

/-- The matching-block recursion on an identical pair sums to the full
length, given enough fuel. -/
theorem matchesTotalF_self (junk : Char → Bool) :
    ∀ (fuel : Nat) (l : List Char), 2 * l.length ≤ fuel →
      matchesTotalF junk fuel l l = l.length
  | 0, l, h => by
    have h0 : l.length = 0 := by omega
    rw [List.length_eq_zero] at h0
    subst h0
    rfl
  | fuel + 1, l, h => by
    by_cases hl : l = []
    · subst hl
      rfl
    · obtain ⟨i, k, hflm, hk, hik⟩ := findLongestMatch_self junk l hl
      rw [matchesTotalF]
      rw [hflm]
      simp only []
      rw [if_neg (by omega)]
      have hn := l.length
      have h1 : matchesTotalF junk fuel (l.take i) (l.take i) = (l.take i).length :=
        matchesTotalF_self junk fuel (l.take i) (by
          rw [List.length_take]
          have : min i l.length = i := min_eq_left (by omega)
          omega)
      have h2 : matchesTotalF junk fuel (l.drop (i + k)) (l.drop (i + k)) =
          (l.drop (i + k)).length :=
        matchesTotalF_self junk fuel (l.drop (i + k)) (by
          rw [List.length_drop]
          omega)
      rw [h1, h2, List.length_take, List.length_drop]
      have : min i l.length = i := min_eq_left (by omega)
      omega

/-- The SequenceMatcher ratio of a non-empty list against itself is 1,
whatever the junk predicate marks. -/
theorem ratio_self (l : List Char) (hl : l ≠ []) : ratio l l = 1 := by
  have hn : l.length ≠ 0 := fun hcon => hl (List.length_eq_zero.mp hcon)
  unfold ratio
  rw [if_neg (by omega)]
  unfold matchesTotal
  rw [matchesTotalF_self (popularJunk l) (l.length + l.length) l (by omega)]
  have hq : (l.length : ℚ) ≠ 0 := Nat.cast_ne_zero.mpr hn
  field_simp
  ring

/-- C5 amended: similarity is 0.0 whenever either token-sorted form is
empty, and the self-similarity of every string with a non-empty
token-sorted form is exactly 1.0 (symmetry, the dropped conjunct, fails
as the counterexample shows). -/
theorem c5_similarity_amended :
    (∀ a b : String, tokenSort a = "" ∨ tokenSort b = "" → similarity a b = 0) ∧
      (∀ a : String, tokenSort a ≠ "" → similarity a a = 1) := by
  constructor
  · intro a b h
    unfold similarity
    rw [if_pos h]
  · intro a h
    unfold similarity
    rw [if_neg (fun hcon => h (hcon.elim id id))]
    apply ratio_self
    intro hcon
    apply h
    rw [← string_mk_data (tokenSort a), hcon]

/-- Witness for C5 amended at concrete strings. -/
theorem c5_similarity_amended_witness :
    similarity ("") ("x") = 0 ∧ similarity ("ab") ("ab") = 1 :=
  ⟨c5_similarity_amended.1 ("") ("x") (Or.inl rfl),
    c5_similarity_amended.2 ("ab") (by decide)⟩

end ClinPGx
